import Mathlib

/-!
Shallow embedding of `src/ursa/agents/base.py` (module-level helpers and the
`BaseAgent` instrumentation core), together with proofs settling the frozen
claims about its specification.

Modelling conventions:
* Python dicts are association lists `List (String × α)` in insertion order;
  a key is absent iff `lookupL` returns `none`.  `setEntry` is dict item
  assignment (replace the first occurrence in place, else append at the end).
* A metric record (a Python dict) is a structure of `Option`-valued fields;
  `none` models an absent key, so `r.get(k)` is the `Option` itself and
  `r.get(k, d)` is `Option.getD d`.
* Monotonic-clock readings (`time.perf_counter`) are supplied as abstract
  integer millisecond instants; `int((t1 - t0) * 1000)` becomes `t1 - t0`.
  Fresh `uuid` strings and wall-clock ISO strings are likewise parameters.
* Exceptions are values `PyExn` (type name plus message); fallible paths
  return them explicitly instead of raising.
-/

namespace Ursa

/-- One metric record, as built by `BaseAgent._build_metric` or by hand.
Every field is optional because the merge/summary code reads records with
`dict.get` and must tolerate absent keys. -/
structure Record where
  agent : Option String := none
  run_id : Option String := none
  ok : Option Bool := none
  started_at : Option String := none
  duration_ms : Option Int := none
  node : Option String := none
  error_type : Option String := none
  error : Option String := none
deriving DecidableEq, Repr

/-- The dedup key `(r.get("run_id"), r.get("started_at"), r.get("duration_ms"))`
used by `merge_metrics`. -/
abbrev DKey := Option String × Option String × Option Int

/-- `(r.get("run_id"), r.get("started_at"), r.get("duration_ms"))`. -/
def dedupKey (r : Record) : DKey := (r.run_id, r.started_at, r.duration_ms)

/-- Python dict lookup on an association list (first occurrence wins). -/
def lookupL {α : Type} : List (String × α) → String → Option α
  | [], _ => none
  | (k, v) :: rest, a => if k = a then some v else lookupL rest a

/-- Python dict item assignment `d[k] = v`: replace the value at the first
occurrence of `k`, else append the new entry at the end. -/
def setEntry {α : Type} : List (String × α) → String → α → List (String × α)
  | [], a, v => [(a, v)]
  | (k, w) :: rest, a, v =>
      if k = a then (a, v) :: rest else (k, w) :: setEntry rest a v

/-- The key view of a dict. -/
def keysOf {α : Type} (l : List (String × α)) : List String := l.map Prod.fst

/-- Python's dict invariant: keys are distinct. -/
def WFDict {α : Type} (l : List (String × α)) : Prop := (keysOf l).Nodup

instance {α : Type} (l : List (String × α)) : Decidable (WFDict l) :=
  inferInstanceAs (Decidable (keysOf l).Nodup)

/-- A metrics ledger: agent id mapped to its ordered list of records
(the value stored under the `__metrics__` state key). -/
abbrev Ledger := List (String × List Record)

/-- Dedup keys of a record list. -/
def recKeys (rs : List Record) : List DKey := rs.map dedupKey

/-- The inner loop of `merge_metrics`: keep the records of `runs` whose dedup
key is not in `seen`, accumulating keys of kept records into `seen` (so later
duplicates are dropped as well). -/
def filterNew (seen : List DKey) : List Record → List Record
  | [] => []
  | r :: rest =>
      if dedupKey r ∈ seen then filterNew seen rest
      else r :: filterNew (dedupKey r :: seen) rest

/-- One agent entry of `merge_metrics`: `dest` extended with the records of
`runs` whose dedup key is not already present (`seen` starts as the keys of
`dest` and accumulates). -/
def combineRuns (dest runs : List Record) : List Record :=
  dest ++ filterNew (recKeys dest) runs

/-- The `for agent, runs in delta.items()` loop of `merge_metrics`:
`out.setdefault(agent, [])` then append the non-duplicate records. -/
def mergeLoop (out : Ledger) : Ledger → Ledger
  | [] => out
  | (agent, runs) :: rest =>
      mergeLoop (setEntry out agent (combineRuns ((lookupL out agent).getD []) runs)) rest

/-- `merge_metrics(curr, delta)` from `base.py`: copy `curr`, then for each
agent of `delta` append the records whose dedup key
`(run_id, started_at, duration_ms)` is not already present. -/
def merge_metrics (curr delta : Ledger) : Ledger :=
  mergeLoop curr delta

/-! Section: State update mappings and the result normalizer (`timed_node`) -/

/-- A Python value stored in a state-update dict (other than the metrics
ledger, which the code always handles separately): an int, a string, a list,
or a nested dict.  Lists carry arbitrary values (messages are opaque). -/
inductive UVal where
  | vint (n : Int)
  | vstr (s : String)
  | vbool (b : Bool)
  | vlist (xs : List UVal)
  | vdict (kvs : List (String × UVal))
deriving Repr

/-- A state-update mapping.  The distinguished ledger key `__metrics__` is
held apart from the remaining items because every code path treats it
specially (`pop`, `setdefault`, skip during merge). -/
structure Updates where
  metrics : Option Ledger := none
  fields : List (String × UVal) := []
deriving Repr

/-- A `langgraph` `Command` control directive, as far as `timed_node` reads
and rebuilds it: an update mapping and the optional `goto` / `graph` /
`interrupt` / `sleep` attributes that are copied through when non-`None`. -/
structure LGCommand where
  update : Updates := {}
  goto : Option String := none
  graph : Option String := none
  interrupt : Option String := none
  sleep : Option Int := none
deriving Repr

/-- An item of a list returned by a step: either a `Command` (detected by
`isinstance`) or any other object, treated as a plain message. -/
inductive RItem where
  | rcmd (c : LGCommand)
  | rmsg (m : UVal)
deriving Repr

/-- The raw return value of a wrapped step, in the shapes `_finish_with`
distinguishes (checked in this order): `Command`, list, dict, anything else
(opaque). -/
inductive Ret where
  | cmd (c : LGCommand)
  | list (items : List RItem)
  | dict (u : Updates)
  | other (tag : String)
deriving Repr

/-- The normalized return value produced by `_finish_with`. -/
inductive NRet where
  | cmd (c : LGCommand)
  | dict (u : Updates)
  | other (tag : String)
deriving Repr

/-- An exception value: its type name (`type(e).__name__`) and message
(`str(e)`). -/
structure PyExn where
  ty : String
  msg : String
deriving DecidableEq, Repr

/-- Python string slicing `s[:n]` on code points. -/
def pyStrTruncate (s : String) (n : Nat) : String := ⟨s.data.take n⟩

/-- The per-instance timing fields of `BaseAgent` used by the wrapper:
`thread_id` plus the mutable run context set by `_start_timer` and cleared
by `_finish_timer`. -/
structure AgentState where
  thread_id : String
  run_id : Option String := none
  run_start : Option Int := none
  run_wall_start : Option String := none
deriving DecidableEq, Repr

/-- `BaseAgent._start_timer`: store a fresh run id, the current monotonic
instant and the current wall-clock ISO string. -/
def start_timer (s : AgentState) (fresh : String) (now : Int) (wall : String) : AgentState :=
  { s with run_id := some fresh, run_start := some now, run_wall_start := some wall }

/-- `BaseAgent._build_metric` evaluated at monotonic instant `now`: duration
is `now - run_start` (zero when the timer was never started), error fields
are present only when an exception is supplied, and the `extra` mapping—
always `node = step name` at every call site—is merged last. -/
def build_metric (s : AgentState) (now : Int) (ok : Bool) (err : Option PyExn)
    (node : Option String) : Record :=
  { agent := some s.thread_id
    run_id := s.run_id
    ok := some ok
    started_at := s.run_wall_start
    duration_ms := some (match s.run_start with | none => 0 | some t0 => now - t0)
    node := node
    error_type := err.map (fun e => e.ty)
    error := err.map (fun e => pyStrTruncate e.msg 500) }

/-- `BaseAgent._inject_metric`: `updates.setdefault(ledger key, empty dict)`,
then `bucket.setdefault(thread_id, empty list).append(metric)`. -/
def inject_metric (tid : String) (u : Updates) (m : Record) : Updates :=
  let led := u.metrics.getD []
  let runs := (lookupL led tid).getD []
  { u with metrics := some (setEntry led tid (runs ++ [m])) }

/-- `BaseAgent._finish_timer`: build the metric, clear the run context, and
inject the metric into `updates`. -/
def finish_timer (s : AgentState) (now : Int) (u : Updates) (ok : Bool)
    (err : Option PyExn) (node : Option String) : AgentState × Updates :=
  let m := build_metric s now ok err node
  ({ s with run_id := none, run_start := none, run_wall_start := none },
    inject_metric s.thread_id u m)

/-- Python dict `d1.update(d2)`: assign every item of `d2` into `d1` in
order. -/
def dictUpdate (d1 d2 : List (String × UVal)) : List (String × UVal) :=
  d2.foldl (fun acc kv => setEntry acc kv.1 kv.2) d1

/-- The per-key rule of `timed_node._merge_updates`: both lists → extend,
both dicts → shallow update, otherwise the later value replaces. -/
def mergeVal (oldv newv : UVal) : UVal :=
  match oldv, newv with
  | .vlist xs, .vlist ys => .vlist (xs ++ ys)
  | .vdict d1, .vdict d2 => .vdict (dictUpdate d1 d2)
  | _, v => v

/-- Merge one item of `add` into the accumulated fields: apply `mergeVal`
when the key already exists, else insert at the end. -/
def mergeOne (fs : List (String × UVal)) (k : String) (v : UVal) : List (String × UVal) :=
  match lookupL fs k with
  | some oldv => setEntry fs k (mergeVal oldv v)
  | none => fs ++ [(k, v)]

/-- `timed_node._merge_updates(into, add)`: fold the items of `add` into
`into`, always skipping the ledger key (so `add`'s metrics are ignored and
`into`'s are untouched). -/
def merge_updates (into add : Updates) : Updates :=
  { into with fields := add.fields.foldl (fun acc kv => mergeOne acc kv.1 kv.2) into.fields }

/-- Remove a key from a field list (the dict comprehension that drops
`messages`). -/
def removeKey (fs : List (String × UVal)) (k : String) : List (String × UVal) :=
  fs.filter (fun kv => kv.1 ≠ k)

/-- Python iteration over the value under `messages` for `msgs.extend(...)`:
lists yield their items, strings their characters, dicts their keys;
ints and bools are not iterable (a `TypeError` would propagate). -/
def uvalIterate : UVal → Option (List UVal)
  | .vlist xs => some xs
  | .vstr s => some (s.data.map (fun c => .vstr (String.singleton c)))
  | .vdict kvs => some (kvs.map (fun kv => .vstr kv.1))
  | .vint _ => none
  | .vbool _ => none

/-- The `for item in ret` loop of the list branch of `_finish_with`:
accumulate the message list, the merged directive updates and the
`has_cmd` flag; `none` models a `TypeError` raised by `msgs.extend`. -/
def listAccum : List RItem → List UVal × Updates × Bool →
    Option (List UVal × Updates × Bool)
  | [], acc => some acc
  | .rmsg m :: rest, (msgs, merged, hc) => listAccum rest (msgs ++ [m], merged, hc)
  | .rcmd c :: rest, (msgs, merged, _) =>
      match lookupL c.update.fields "messages" with
      | none => listAccum rest (msgs, merge_updates merged c.update, true)
      | some v =>
          match uvalIterate v with
          | none => none
          | some ms =>
              listAccum rest
                (msgs ++ ms,
                  merge_updates merged
                    { c.update with fields := removeKey c.update.fields "messages" },
                  true)

/-- `timed_node._finish_with`: normalize the raw return value, shape by
shape, injecting the finish-time metric.  `none` models the only unguarded
failure (`msgs.extend` of a non-iterable inside the list branch). -/
def finish_with (s : AgentState) (now : Int) (ret : Ret) (node_name : String) :
    Option (AgentState × NRet) :=
  match ret with
  | .cmd c =>
      let upd := { c.update with metrics := none }
      let r := finish_timer s now upd true none (some node_name)
      some (r.1, .cmd { update := r.2, goto := c.goto, graph := c.graph,
                        interrupt := c.interrupt, sleep := c.sleep })
  | .list items =>
      match listAccum items ([], {}, false) with
      | none => none
      | some (msgs, merged, hc) =>
          if hc then
            let merged' : Updates :=
              { metrics := none, fields := setEntry merged.fields "messages" (.vlist msgs) }
            let r := finish_timer s now merged' true none (some node_name)
            some (r.1, .cmd { update := r.2 })
          else
            let updates : Updates := { metrics := none, fields := [("messages", .vlist msgs)] }
            let r := finish_timer s now updates true none (some node_name)
            some (r.1, .dict r.2)
  | .dict u =>
      let r := finish_timer s now { u with metrics := none } true none (some node_name)
      some (r.1, .dict r.2)
  | .other tag =>
      let r := finish_timer s now {} true none (some node_name)
      some (r.1, .other tag)

/-- How the wrapped step behaved: returned a value or raised. -/
inductive StepOutcome where
  | ok (r : Ret)
  | raises (e : PyExn)
deriving Repr

/-- What the wrapper call produced.  On step failure the metric is injected
into a fresh empty mapping whose value is discarded by the code; the model
keeps it (`discarded`) so the emitted metric is observable, and carries the
re-raised exception.  `bookkeepingError` is the unguarded `TypeError` of the
list branch, which propagates with the timer still populated. -/
inductive WrapResult where
  | ok (r : NRet)
  | failed (discarded : Updates) (e : PyExn)
  | bookkeepingError
deriving Repr

/-- The synchronous `timed_node.wrapper` (the async variant is textually
identical around `await`): start the timer at instant `t0`, run the step,
and either normalize the result or record the failure and re-raise.  The
step's behaviour and the finish instant `t1` are inputs. -/
def timed_node_wrapper (s : AgentState) (fresh : String) (t0 : Int) (wall : String)
    (step_name : String) (outcome : StepOutcome) (t1 : Int) :
    AgentState × WrapResult :=
  let s1 := start_timer s fresh t0 wall
  match outcome with
  | .raises e =>
      let r := finish_timer s1 t1 {} false (some e) (some step_name)
      (r.1, .failed r.2 e)
  | .ok ret =>
      match finish_with s1 t1 ret step_name with
      | some (s2, nr) => (s2, .ok nr)
      | none => (s1, .bookkeepingError)

/-! Section: The action proxy (`BaseAgent._wrap_action_for_run_timing`) -/

/-- The value stored under the ledger key of a result mapping: a proper
ledger dict, or some other object (on which the chained `setdefault` of the
bookkeeping would raise). -/
inductive MSlot where
  | led (l : Ledger)
  | bad (tag : String)
deriving Repr

/-- A mapping returned by the wrapped action: its ledger slot (if the key is
present) and its remaining items, which the proxy never touches. -/
structure ActionMapping where
  mslot : Option MSlot := none
  rest : List (String × UVal) := []
deriving Repr

/-- The wrapped action's return value: a mapping or anything else. -/
inductive ActionRes where
  | dict (m : ActionMapping)
  | nondict (tag : String)
deriving Repr

/-- How the wrapped `invoke` behaved. -/
inductive ActionOutcome where
  | ok (r : ActionRes)
  | raises (e : PyExn)
deriving Repr

/-- What the proxy's `invoke` produces towards its caller. -/
inductive ProxyResult where
  | ok (r : ActionRes)
  | raises (e : PyExn)
deriving Repr

/-- The run-level record appended by `_ActionProxy.invoke`.  `ok` is the flag
at bookkeeping time; since `res` is only bound when the inner call returned,
the record is only ever written with `ok = true`. -/
def proxyRecord (tid fresh wall : String) (t0 t1 : Int) (ok : Bool) : Record :=
  { agent := some tid, run_id := some fresh, ok := some ok,
    started_at := some wall, duration_ms := some (t1 - t0), node := some "run" }

/-- `_ActionProxy.invoke`: call through, and in the `finally` block append one
run metric into the result's ledger when the result is a mapping.  If the
inner call raised, `res` is unbound (`None`), so nothing is recorded and the
exception propagates.  If the ledger slot holds a non-dict, the chained
`setdefault` raises inside the guarded block and is swallowed: the caller
still receives the untouched result. -/
def proxy_invoke (tid fresh wall : String) (t0 t1 : Int) (outcome : ActionOutcome) :
    ProxyResult :=
  match outcome with
  | .raises e => .raises e
  | .ok (.nondict tag) => .ok (.nondict tag)
  | .ok (.dict m) =>
      match m.mslot with
      | some (.bad _) => .ok (.dict m)
      | some (.led led) =>
          let runs := (lookupL led tid).getD []
          .ok (.dict { m with
            mslot := some (.led (setEntry led tid (runs ++ [proxyRecord tid fresh wall t0 t1 true]))) })
      | none =>
          .ok (.dict { m with
            mslot := some (.led [(tid, [proxyRecord tid fresh wall t0 t1 true])]) })

/-! Section: The summarizer (`BaseAgent._summarize_runs`) -/

/-- The stats dict returned by `_summarize_runs`. -/
structure RunStats where
  count : Nat
  errors : Nat
  total_ms : Int
  avg_ms : Int
  p50_ms : Int
  p95_ms : Int
  max_ms : Int
deriving DecidableEq, Repr

/-- `r.get("duration_ms", 0)` coerced by `int(...)`. -/
def durOf (r : Record) : Int := r.duration_ms.getD 0

/-- The nearest-rank index `max(0, min(n - 1, ceil(p * n) - 1))` of the
inner `pct` helper, computed for the exact rational `p = num / den` (the
binary floats `0.5` and `0.95` round to the same index for every list the
claims range over); `Nat` ceiling division realizes the real ceiling and
truncated subtraction realizes the clamp at zero. -/
def pctIndex (num den n : Nat) : Nat :=
  min (n - 1) ((num * n + den - 1) / den - 1)

/-- `BaseAgent._summarize_runs`: zeroed stats on an empty list, otherwise
count, error count (`ok` defaulting to `True`), total, truncated mean,
nearest-rank 50th and 95th percentiles over the ascending sort, and the last
(largest) sorted duration. -/
def summarize_runs (runs : List Record) : RunStats :=
  match runs with
  | [] => ⟨0, 0, 0, 0, 0, 0, 0⟩
  | _ =>
      let durs := runs.map durOf
      let ds := List.insertionSort (· ≤ ·) durs
      let n := ds.length
      let total := durs.sum
      { count := n
        errors := runs.countP (fun r => !(r.ok.getD true))
        total_ms := total
        avg_ms := Int.tdiv total n
        p50_ms := ds.getD (pctIndex 1 2 n) 0
        p95_ms := ds.getD (pctIndex 19 20 n) 0
        max_ms := ds.getLast?.getD 0 }

/-! Section: The flat tool timer (`timed_tool` and `TOOL_TIMES`) -/

/-- One entry of the process-wide `TOOL_TIMES` list: tool name, duration in
milliseconds, success flag. -/
abbrev ToolEntry := String × Int × Bool

/-- How the wrapped free function behaved: returned an opaque value or
raised. -/
inductive ToolOutcome where
  | ok (v : String)
  | raises (e : PyExn)
deriving DecidableEq, Repr

/-- One invocation of a function wrapped by `timed_tool(name)`: the
`finally` block always appends exactly one `(name, duration, ok)` entry to
the global log, with `ok = false` exactly when the call raised, and the
outcome (value or exception) passes through unchanged. -/
def timed_tool_call (name : String) (t0 t1 : Int) (outcome : ToolOutcome)
    (log : List ToolEntry) : List ToolEntry × ToolOutcome :=
  match outcome with
  | .ok v => (log ++ [(name, t1 - t0, true)], .ok v)
  | .raises e => (log ++ [(name, t1 - t0, false)], .raises e)

/-! Section: Association-list (dict) lemmas -/

theorem lookupL_setEntry_self {α : Type} (l : List (String × α)) (k : String) (v : α) :
    lookupL (setEntry l k v) k = some v := by
  induction l with
  | nil => simp [setEntry, lookupL]
  | cons kv rest ih =>
      obtain ⟨k0, w⟩ := kv
      by_cases h : k0 = k
      · simp [setEntry, h, lookupL]
      · simp [setEntry, h, lookupL, ih]

theorem lookupL_setEntry_ne {α : Type} (l : List (String × α)) (k k' : String) (v : α)
    (h : k' ≠ k) : lookupL (setEntry l k v) k' = lookupL l k' := by
  have hne : ¬ k = k' := fun hh => h hh.symm
  induction l with
  | nil => simp [setEntry, lookupL, hne]
  | cons kv rest ih =>
      obtain ⟨k0, w⟩ := kv
      by_cases hk : k0 = k
      · subst hk
        simp [setEntry, lookupL, hne]
      · simp [setEntry, hk, lookupL, ih]

theorem lookupL_eq_none_iff {α : Type} (l : List (String × α)) (k : String) :
    lookupL l k = none ↔ k ∉ keysOf l := by
  induction l with
  | nil => simp [lookupL, keysOf]
  | cons kv rest ih =>
      obtain ⟨k0, w⟩ := kv
      by_cases h : k0 = k
      · simp [lookupL, h, keysOf]
      · have hne : ¬ k = k0 := fun hh => h hh.symm
        simp only [lookupL, if_neg h, keysOf, List.map_cons, List.mem_cons]
        simp only [keysOf] at ih
        simp [ih, hne]

theorem lookupL_isSome_iff {α : Type} (l : List (String × α)) (k : String) :
    (lookupL l k).isSome ↔ k ∈ keysOf l := by
  rcases hl : lookupL l k with _ | v
  · simp [← lookupL_eq_none_iff l k, hl]
  · simp only [Option.isSome_some, true_iff]
    by_contra hmem
    rw [← lookupL_eq_none_iff l k] at hmem
    rw [hl] at hmem
    exact Option.noConfusion hmem

theorem setEntry_eq_of_lookup {α : Type} (l : List (String × α)) (k : String) (v : α)
    (h : lookupL l k = some v) : setEntry l k v = l := by
  induction l with
  | nil => simp [lookupL] at h
  | cons kv rest ih =>
      obtain ⟨k0, w⟩ := kv
      by_cases hk : k0 = k
      · subst hk
        simp [lookupL] at h
        simp [setEntry, h]
      · simp [lookupL, hk] at h
        simp [setEntry, hk, ih h]

theorem keysOf_setEntry {α : Type} (l : List (String × α)) (k : String) (v : α) :
    keysOf (setEntry l k v) = if k ∈ keysOf l then keysOf l else keysOf l ++ [k] := by
  induction l with
  | nil => simp [setEntry, keysOf]
  | cons kv rest ih =>
      obtain ⟨k0, w⟩ := kv
      by_cases hk : k0 = k
      · subst hk
        simp [setEntry, keysOf]
      · have hne : ¬ k = k0 := fun hh => hk hh.symm
        simp only [setEntry, if_neg hk, keysOf, List.map_cons, List.mem_cons] at ih ⊢
        by_cases hmem : k ∈ List.map Prod.fst rest
        · simp [hmem, ih, hne]
        · simp [hmem, ih, hne]

theorem lookupL_of_mem_wf {α : Type} (l : List (String × α)) (hwf : WFDict l)
    (p : String × α) (hp : p ∈ l) : lookupL l p.1 = some p.2 := by
  induction l with
  | nil => cases hp
  | cons kv rest ih =>
      obtain ⟨k0, w⟩ := kv
      have hnd : k0 ∉ List.map Prod.fst rest ∧ (List.map Prod.fst rest).Nodup := by
        simpa [WFDict, keysOf, List.nodup_cons] using hwf
      rcases List.mem_cons.1 hp with h | h
      · subst h
        simp [lookupL]
      · have hk : k0 ≠ p.1 := by
          intro he
          exact hnd.1 (he ▸ List.mem_map_of_mem Prod.fst h)
        simp [lookupL, hk, ih hnd.2 h]

/-! Section: Characterization of `merge_metrics` -/

theorem mergeLoop_lookup (delta : Ledger) (hd : WFDict delta) (out : Ledger) (k : String) :
    lookupL (mergeLoop out delta) k =
      if k ∈ keysOf delta then
        some (combineRuns ((lookupL out k).getD []) ((lookupL delta k).getD []))
      else lookupL out k := by
  induction delta generalizing out with
  | nil => simp [mergeLoop, keysOf]
  | cons kv rest ih =>
      obtain ⟨a, runs⟩ := kv
      have hnd : a ∉ List.map Prod.fst rest ∧ (List.map Prod.fst rest).Nodup := by
        simpa [WFDict, keysOf, List.nodup_cons] using hd
      rw [mergeLoop, ih hnd.2]
      by_cases hk : k = a
      · subst hk
        have hkr : k ∉ keysOf rest := hnd.1
        have hhead : k ∈ keysOf ((k, runs) :: rest) := by simp [keysOf]
        rw [if_neg hkr, lookupL_setEntry_self, if_pos hhead]
        simp [lookupL]
      · have hne : ¬ a = k := fun hh => hk hh.symm
        have h1 : lookupL (setEntry out a (combineRuns ((lookupL out a).getD []) runs)) k
            = lookupL out k := lookupL_setEntry_ne _ _ _ _ hk
        have hcons : lookupL ((a, runs) :: rest) k = lookupL rest k := by
          simp [lookupL, hne]
        have hkeys : k ∈ keysOf ((a, runs) :: rest) ↔ k ∈ keysOf rest := by
          simp [keysOf, hk]
        by_cases hmem : k ∈ keysOf rest
        · rw [if_pos hmem, if_pos (hkeys.2 hmem), h1, hcons]
        · rw [if_neg hmem, if_neg (fun hh => hmem (hkeys.1 hh)), h1]

theorem merge_metrics_lookup (curr delta : Ledger) (hd : WFDict delta) (k : String) :
    lookupL (merge_metrics curr delta) k =
      if k ∈ keysOf curr ∨ k ∈ keysOf delta then
        some (combineRuns ((lookupL curr k).getD []) ((lookupL delta k).getD []))
      else none := by
  rw [merge_metrics, mergeLoop_lookup delta hd curr k]
  by_cases hdm : k ∈ keysOf delta
  · simp [hdm]
  · by_cases hcm : k ∈ keysOf curr
    · have hs : (lookupL curr k).isSome := (lookupL_isSome_iff curr k).2 hcm
      rcases hv : lookupL curr k with _ | v
      · rw [hv] at hs; cases hs
      · have hdel : lookupL delta k = none := (lookupL_eq_none_iff delta k).2 hdm
        simp [hdm, hcm, hv, hdel, combineRuns, filterNew]
    · have hcur : lookupL curr k = none := (lookupL_eq_none_iff curr k).2 hcm
      simp [hdm, hcm, hcur]

theorem mem_keysOf_mergeLoop (delta out : Ledger) (k : String) :
    k ∈ keysOf (mergeLoop out delta) ↔ k ∈ keysOf out ∨ k ∈ keysOf delta := by
  induction delta generalizing out with
  | nil => simp [mergeLoop, keysOf]
  | cons kv rest ih =>
      obtain ⟨a, runs⟩ := kv
      rw [mergeLoop, ih]
      have hset : k ∈ keysOf (setEntry out a (combineRuns ((lookupL out a).getD []) runs)) ↔
          k ∈ keysOf out ∨ k = a := by
        rw [keysOf_setEntry]
        by_cases hmem : a ∈ keysOf out
        · rw [if_pos hmem]
          constructor
          · exact Or.inl
          · rintro (h | h)
            · exact h
            · exact h ▸ hmem
        · rw [if_neg hmem]
          simp
      rw [hset]
      have hcons : k ∈ keysOf ((a, runs) :: rest) ↔ k = a ∨ k ∈ keysOf rest := by
        simp [keysOf]
      rw [hcons]
      tauto

theorem wf_mergeLoop (delta out : Ledger) (hout : WFDict out) :
    WFDict (mergeLoop out delta) := by
  induction delta generalizing out with
  | nil => simpa [mergeLoop] using hout
  | cons kv rest ih =>
      obtain ⟨a, runs⟩ := kv
      rw [mergeLoop]
      apply ih
      unfold WFDict
      rw [keysOf_setEntry]
      by_cases hmem : a ∈ keysOf out
      · simpa [hmem] using hout
      · simp only [if_neg hmem]
        exact List.Nodup.append hout (List.nodup_singleton a)
          (by simpa [List.disjoint_singleton] using hmem)

theorem wf_merge_metrics (curr delta : Ledger) (hc : WFDict curr) :
    WFDict (merge_metrics curr delta) :=
  wf_mergeLoop delta curr hc

theorem filterNew_of_all_mem (seen : List DKey) (l : List Record)
    (h : ∀ r ∈ l, dedupKey r ∈ seen) : filterNew seen l = [] := by
  induction l with
  | nil => rfl
  | cons r rest ih =>
      rw [filterNew, if_pos (h r (by simp))]
      exact ih (fun x hx => h x (by simp [hx]))

theorem mergeLoop_fix (delta out : Ledger)
    (h : ∀ p ∈ delta, lookupL out p.1 = some p.2) : mergeLoop out delta = out := by
  induction delta with
  | nil => rfl
  | cons kv rest ih =>
      obtain ⟨a, runs⟩ := kv
      have ha : lookupL out a = some runs := h (a, runs) (by simp)
      have hcomb : combineRuns runs runs = runs := by
        unfold combineRuns
        rw [filterNew_of_all_mem (recKeys runs) runs
          (fun r hr => by simpa [recKeys] using List.mem_map_of_mem dedupKey hr)]
        simp
      rw [mergeLoop, ha]
      simp only [Option.getD_some, hcomb]
      rw [setEntry_eq_of_lookup out a runs ha]
      exact ih (fun p hp => h p (by simp [hp]))

theorem merge_metrics_self (l : Ledger) (hwf : WFDict l) : merge_metrics l l = l :=
  mergeLoop_fix l l (fun p hp => lookupL_of_mem_wf l hwf p hp)

/-! Section: Associativity of the per-agent combination -/

theorem recKeys_cons (r : Record) (l : List Record) :
    recKeys (r :: l) = dedupKey r :: recKeys l := rfl

theorem filterNew_cons (seen : List DKey) (r : Record) (l : List Record) :
    filterNew seen (r :: l) =
      if dedupKey r ∈ seen then filterNew seen l
      else r :: filterNew (dedupKey r :: seen) l := rfl

theorem filterNew_congr (s1 s2 : List DKey) (h : ∀ x, x ∈ s1 ↔ x ∈ s2) (l : List Record) :
    filterNew s1 l = filterNew s2 l := by
  induction l generalizing s1 s2 with
  | nil => rfl
  | cons r rest ih =>
      by_cases hr : dedupKey r ∈ s1
      · rw [filterNew_cons, if_pos hr, filterNew_cons, if_pos ((h _).1 hr), ih s1 s2 h]
      · rw [filterNew_cons, if_neg hr, filterNew_cons, if_neg (fun hh => hr ((h _).2 hh))]
        refine congrArg _ (ih _ _ ?_)
        intro x
        simp only [List.mem_cons, h x]

theorem filterNew_append (s : List DKey) (y z : List Record) :
    filterNew s (y ++ z) =
      filterNew s y ++ filterNew (recKeys (filterNew s y) ++ s) z := by
  induction y generalizing s with
  | nil => simp [filterNew, recKeys]
  | cons r rest ih =>
      by_cases hr : dedupKey r ∈ s
      · rw [List.cons_append, filterNew_cons, if_pos hr, filterNew_cons, if_pos hr, ih s]
      · rw [List.cons_append, filterNew_cons, if_neg hr, filterNew_cons, if_neg hr, ih]
        rw [List.cons_append]
        refine congrArg _ (congrArg _ ?_)
        refine filterNew_congr _ _ ?_ z
        intro x
        simp only [recKeys_cons, List.mem_append, List.mem_cons]
        tauto

theorem filterNew_filterNew (S s' : List DKey) (h : ∀ x ∈ s', x ∈ S) (z : List Record) :
    filterNew S (filterNew s' z) = filterNew S z := by
  induction z generalizing S s' with
  | nil => rfl
  | cons r rest ih =>
      rw [filterNew_cons, filterNew_cons]
      by_cases h1 : dedupKey r ∈ s'
      · rw [if_pos h1, if_pos (h _ h1)]
        exact ih S s' h
      · rw [if_neg h1, filterNew_cons]
        by_cases h2 : dedupKey r ∈ S
        · rw [if_pos h2, if_pos h2]
          refine ih S (dedupKey r :: s') ?_
          intro x hx
          rcases List.mem_cons.1 hx with hx | hx
          · exact hx ▸ h2
          · exact h x hx
        · rw [if_neg h2, if_neg h2]
          refine congrArg _ (ih _ (dedupKey r :: s') ?_)
          intro x hx
          rcases List.mem_cons.1 hx with hx | hx
          · exact hx ▸ List.mem_cons_self _ _
          · exact List.mem_cons_of_mem _ (h x hx)

theorem recKeys_subset_filterNew (s : List DKey) (y : List Record) :
    ∀ x ∈ recKeys y, x ∈ s ∨ x ∈ recKeys (filterNew s y) := by
  induction y generalizing s with
  | nil => simp [recKeys]
  | cons r rest ih =>
      intro x hx
      rw [recKeys_cons] at hx
      rcases List.mem_cons.1 hx with hx1 | hx1
      · by_cases hr : dedupKey r ∈ s
        · exact Or.inl (hx1 ▸ hr)
        · refine Or.inr ?_
          rw [filterNew_cons, if_neg hr, recKeys_cons]
          exact List.mem_cons.2 (Or.inl hx1)
      · by_cases hr : dedupKey r ∈ s
        · rw [filterNew_cons, if_pos hr]
          exact ih s x hx1
        · rw [filterNew_cons, if_neg hr, recKeys_cons]
          rcases ih (dedupKey r :: s) x hx1 with h | h
          · rcases List.mem_cons.1 h with h | h
            · exact Or.inr (List.mem_cons.2 (Or.inl h))
            · exact Or.inl h
          · exact Or.inr (List.mem_cons.2 (Or.inr h))

theorem combineRuns_assoc (x y z : List Record) :
    combineRuns (combineRuns x y) z = combineRuns x (combineRuns y z) := by
  unfold combineRuns
  have hkeys : recKeys (x ++ filterNew (recKeys x) y) =
      recKeys x ++ recKeys (filterNew (recKeys x) y) := by
    simp [recKeys]
  rw [hkeys, filterNew_append (recKeys x) y (filterNew (recKeys y) z)]
  rw [filterNew_filterNew (recKeys (filterNew (recKeys x) y) ++ recKeys x) (recKeys y)
    (by
      intro k hk
      rcases recKeys_subset_filterNew (recKeys x) y k hk with h | h
      · exact List.mem_append.2 (Or.inr h)
      · exact List.mem_append.2 (Or.inl h)) z]
  rw [List.append_assoc]
  refine congrArg _ (congrArg _ ?_)
  refine filterNew_congr _ _ ?_ z
  intro k
  simp only [List.mem_append]
  tauto

theorem getD_merge_lookup (curr delta : Ledger) (hd : WFDict delta) (k : String) :
    (lookupL (merge_metrics curr delta) k).getD [] =
      combineRuns ((lookupL curr k).getD []) ((lookupL delta k).getD []) := by
  rw [merge_metrics_lookup curr delta hd k]
  by_cases hm : k ∈ keysOf curr ∨ k ∈ keysOf delta
  · rw [if_pos hm]
    rfl
  · push_neg at hm
    have ha : lookupL curr k = none := (lookupL_eq_none_iff curr k).2 hm.1
    have hb : lookupL delta k = none := (lookupL_eq_none_iff delta k).2 hm.2
    rw [if_neg (by tauto), ha, hb]
    rfl

theorem merge_metrics_assoc_lookup (a b c : Ledger) (hb : WFDict b) (hc : WFDict c)
    (k : String) :
    lookupL (merge_metrics (merge_metrics a b) c) k =
      lookupL (merge_metrics a (merge_metrics b c)) k := by
  have hbc : WFDict (merge_metrics b c) := wf_merge_metrics b c hb
  rw [merge_metrics_lookup (merge_metrics a b) c hc k,
    merge_metrics_lookup a (merge_metrics b c) hbc k]
  have hmab : k ∈ keysOf (merge_metrics a b) ↔ k ∈ keysOf a ∨ k ∈ keysOf b :=
    mem_keysOf_mergeLoop b a k
  have hmbc : k ∈ keysOf (merge_metrics b c) ↔ k ∈ keysOf b ∨ k ∈ keysOf c :=
    mem_keysOf_mergeLoop c b k
  have hab : (lookupL (merge_metrics a b) k).getD [] =
      combineRuns ((lookupL a k).getD []) ((lookupL b k).getD []) :=
    getD_merge_lookup a b hb k
  have hbcv : (lookupL (merge_metrics b c) k).getD [] =
      combineRuns ((lookupL b k).getD []) ((lookupL c k).getD []) :=
    getD_merge_lookup b c hc k
  by_cases hm : k ∈ keysOf a ∨ k ∈ keysOf b ∨ k ∈ keysOf c
  · rw [if_pos (by rw [hmab]; tauto), if_pos (by rw [hmbc]; tauto), hab, hbcv,
      combineRuns_assoc]
  · rw [if_neg (by rw [hmab]; tauto), if_neg (by rw [hmbc]; tauto)]

/-! Section: Concrete sample records -/

/-- A sample well-formed record (distinct dedup key from `rSample2`). -/
def rSample1 : Record :=
  { agent := some "A", run_id := some "run-1", ok := some true,
    started_at := some "2024-01-01T00:00:00+00:00", duration_ms := some 5 }

/-- A second sample record with a different dedup key. -/
def rSample2 : Record :=
  { agent := some "A", run_id := some "run-2", ok := some true,
    started_at := some "2024-01-01T00:00:01+00:00", duration_ms := some 7 }

/-! Section: Claims C1 and C7: algebra of `merge_metrics` -/

/-- C1: for ledgers with the Python dict invariant (distinct keys), and any
agent present in either input, the merged ledger maps that agent to the
first ledger's records in their original order followed by exactly those
records of the second ledger whose dedup key `(run_id, started_at,
duration_ms)` does not already occur in the output built so far; merging a
ledger with itself returns it unchanged (idempotence); and merging the
ledger mapping agent A to the one-record list with the ledger mapping A to
that record plus a second one yields the two-record ledger, in order. -/
theorem claim_C1 (curr delta : Ledger) (k : String)
    (hc : WFDict curr) (hd : WFDict delta)
    (hk : k ∈ keysOf curr ∨ k ∈ keysOf delta) :
    lookupL (merge_metrics curr delta) k =
      some (((lookupL curr k).getD []) ++
        filterNew (recKeys ((lookupL curr k).getD [])) ((lookupL delta k).getD [])) ∧
    merge_metrics curr curr = curr ∧
    merge_metrics [("A", [rSample1])] [("A", [rSample1, rSample2])]
      = [("A", [rSample1, rSample2])] := by
  refine ⟨?_, merge_metrics_self curr hc, by decide⟩
  rw [merge_metrics_lookup curr delta hd k, if_pos hk]
  rfl

/-- Witness for C1 at concrete inputs: the dict invariants and the presence
hypothesis hold for the ledgers of the spec's own example, and the theorem
applies. -/
theorem claim_C1_witness :
    WFDict ([("A", [rSample1])] : Ledger) ∧
    WFDict ([("A", [rSample1, rSample2])] : Ledger) ∧
    ("A" ∈ keysOf ([("A", [rSample1])] : Ledger) ∨
      "A" ∈ keysOf ([("A", [rSample1, rSample2])] : Ledger)) ∧
    (lookupL (merge_metrics [("A", [rSample1])] [("A", [rSample1, rSample2])]) "A" =
      some (((lookupL ([("A", [rSample1])] : Ledger) "A").getD []) ++
        filterNew (recKeys ((lookupL ([("A", [rSample1])] : Ledger) "A").getD []))
          ((lookupL ([("A", [rSample1, rSample2])] : Ledger) "A").getD [])) ∧
    merge_metrics [("A", [rSample1])] [("A", [rSample1])] = [("A", [rSample1])] ∧
    merge_metrics [("A", [rSample1])] [("A", [rSample1, rSample2])]
      = [("A", [rSample1, rSample2])]) :=
  ⟨by decide, by decide, by decide,
    claim_C1 [("A", [rSample1])] [("A", [rSample1, rSample2])] "A"
      (by decide) (by decide) (by decide)⟩

/-- C7 counterexample: `merge_metrics` is not commutative.  Merging the
singleton ledgers for agent A holding `rSample1` and `rSample2` in the two
orders yields record lists in opposite orders, so the results differ even
under Python dict equality (which compares per-key values, list order
included). -/
theorem claim_C7_counterexample :
    lookupL (merge_metrics [("A", [rSample1])] [("A", [rSample2])]) "A" ≠
      lookupL (merge_metrics [("A", [rSample2])] [("A", [rSample1])]) "A" := by
  decide

/-- C7 (amended): the commutativity half of the claim is false (see the
counterexample), but `merge_metrics` is associative: for ledgers with the
Python dict invariant, the two ways of merging three ledgers agree on every
agent's record list (and hence on the key set), which is Python dict
equality including per-agent record-list order. -/
theorem claim_C7 (a b c : Ledger) (ha : WFDict a) (hb : WFDict b) (hc : WFDict c)
    (k : String) :
    lookupL (merge_metrics (merge_metrics a b) c) k =
      lookupL (merge_metrics a (merge_metrics b c)) k :=
  merge_metrics_assoc_lookup a b c hb hc k

/-- Witness for C7 at concrete inputs: three distinct singleton ledgers
satisfy the dict invariant and associativity evaluates as stated. -/
theorem claim_C7_witness :
    WFDict ([("A", [rSample1])] : Ledger) ∧
    WFDict ([("B", [rSample2])] : Ledger) ∧
    WFDict ([("A", [rSample2])] : Ledger) ∧
    lookupL (merge_metrics (merge_metrics [("A", [rSample1])] [("B", [rSample2])])
        [("A", [rSample2])]) "A" =
      lookupL (merge_metrics [("A", [rSample1])]
        (merge_metrics [("B", [rSample2])] [("A", [rSample2])])) "A" :=
  ⟨by decide, by decide, by decide,
    claim_C7 [("A", [rSample1])] [("B", [rSample2])] [("A", [rSample2])]
      (by decide) (by decide) (by decide) "A"⟩

/-! Section: Claims C2, C3, C4: the result normalizer -/

/-- Number of ledger records an update mapping holds for one agent. -/
def ledgerCount (u : Updates) (tid : String) : Nat :=
  ((lookupL (u.metrics.getD []) tid).getD []).length

/-- Number of ledger records a wrapper result carries for one agent (zero
when it carries no payload). -/
def wrapLedgerCount (r : WrapResult) (tid : String) : Nat :=
  match r with
  | .ok (.dict u) => ledgerCount u tid
  | .ok (.cmd c) => ledgerCount c.update tid
  | _ => 0

/-- The agent instance and raw mapping of the C2 counterexample: the step
returns a mapping that already carries two ledger records for agent A. -/
def stA : AgentState := { thread_id := "A" }

/-- A raw update mapping with a pre-existing two-record ledger for agent A. -/
def uPre : Updates := { metrics := some [("A", [rSample1, rSample2])] }

/-- C2 counterexample: when the raw returned mapping already holds two
ledger records for this agent, the normalized mapping holds one record (the
code strips the pre-existing ledger field before injecting), not two plus
one as the claim requires. -/
theorem claim_C2_counterexample :
    wrapLedgerCount ((timed_node_wrapper stA "f" 0 "w" "step" (.ok (.dict uPre)) 3).2) "A" ≠
      ledgerCount uPre "A" + 1 := by
  decide

/-- C2 (amended): for a step returning a plain update mapping the normalizer
strips any pre-existing ledger field and returns the mapping with exactly
one ledger record for this agent — not one more than before — whose
`duration_ms` is the clock delta (nonnegative for a monotonic clock) and
whose `node` equals the step's name; all non-ledger fields pass through. -/
theorem claim_C2 (s : AgentState) (u : Updates) (fresh wall name : String)
    (t0 t1 : Int) (h : t0 ≤ t1) :
    (timed_node_wrapper s fresh t0 wall name (.ok (.dict u)) t1).2 =
      WrapResult.ok (.dict
        { metrics := some [(s.thread_id,
            [{ agent := some s.thread_id, run_id := some fresh, ok := some true,
               started_at := some wall, duration_ms := some (t1 - t0),
               node := some name }])],
          fields := u.fields }) ∧
    wrapLedgerCount ((timed_node_wrapper s fresh t0 wall name (.ok (.dict u)) t1).2)
      s.thread_id = 1 ∧
    0 ≤ t1 - t0 := by
  refine ⟨rfl, ?_, by omega⟩
  simp [timed_node_wrapper, finish_with, finish_timer, inject_metric, wrapLedgerCount,
    ledgerCount, lookupL, setEntry, start_timer]

/-- Witness for C2: concrete timer instants with `t0 ≤ t1`. -/
theorem claim_C2_witness :
    ((0 : Int) ≤ 3) ∧
    ((timed_node_wrapper stA "f" 0 "w" "step" (.ok (.dict uPre)) 3).2 =
      WrapResult.ok (.dict
        { metrics := some [(stA.thread_id,
            [{ agent := some stA.thread_id, run_id := some "f", ok := some true,
               started_at := some "w", duration_ms := some (3 - 0),
               node := some "step" }])],
          fields := uPre.fields }) ∧
    wrapLedgerCount ((timed_node_wrapper stA "f" 0 "w" "step" (.ok (.dict uPre)) 3).2)
      stA.thread_id = 1 ∧
    (0 : Int) ≤ 3 - 0) :=
  ⟨by decide, claim_C2 stA uPre "f" "w" "step" 0 3 (by decide)⟩

/-- C3: a step returning the heterogeneous list of two plain messages and
one control directive with update mapping `x = 1` normalizes to a single
control directive (all routing attributes absent) whose update mapping is
`x = 1` plus the messages folded under the `messages` key plus a ledger
holding exactly one record for this agent with `node` equal to the step's
name. -/
theorem claim_C3 (m1 m2 : UVal) (s : AgentState) (fresh wall name : String)
    (t0 t1 : Int) :
    (timed_node_wrapper s fresh t0 wall name
        (.ok (.list [.rmsg m1, .rmsg m2,
          .rcmd { update := { fields := [("x", .vint 1)] } }])) t1).2 =
      WrapResult.ok (.cmd
        { update :=
            { metrics := some [(s.thread_id,
                [{ agent := some s.thread_id, run_id := some fresh, ok := some true,
                   started_at := some wall, duration_ms := some (t1 - t0),
                   node := some name }])],
              fields := [("x", .vint 1), ("messages", .vlist [m1, m2])] },
          goto := none, graph := none, interrupt := none, sleep := none }) := by
  rfl

/-- C4: when the wrapped step raises, the wrapper records a failure metric
into a fresh (discarded) mapping — `ok = false`, `error_type` the
exception's type name, `error` the message truncated to 500 characters,
`node` the step's name — clears the timer, and re-raises the very same
exception with no other return value; the stored error text never exceeds
500 characters. -/
theorem claim_C4 (s : AgentState) (fresh wall name : String) (t0 t1 : Int) (e : PyExn) :
    timed_node_wrapper s fresh t0 wall name (.raises e) t1 =
      ({ s with run_id := none, run_start := none, run_wall_start := none },
        WrapResult.failed
          { metrics := some [(s.thread_id,
              [{ agent := some s.thread_id, run_id := some fresh, ok := some false,
                 started_at := some wall, duration_ms := some (t1 - t0),
                 node := some name, error_type := some e.ty,
                 error := some (pyStrTruncate e.msg 500) }])],
            fields := [] }
          e) ∧
    (pyStrTruncate e.msg 500).length ≤ 500 := by
  refine ⟨rfl, ?_⟩
  show (e.msg.data.take 500).length ≤ 500
  exact List.length_take_le 500 e.msg.data

/-! Section: Claims C5 and C6: the summarizer -/

/-- Modelled from the spec's words: the nearest-rank index
`clamp(ceil(p * n) - 1, 0, n - 1)` for an exact rational percentile `p`,
written with the mathematical ceiling; to be compared against the `pct`
helper embedded from the code. -/
def specIdx (p : ℚ) (n : Nat) : Nat :=
  (max 0 (min ((n : Int) - 1) (⌈p * n⌉ - 1))).toNat

theorem ceil_natCast_div (N b : Nat) (hb : 0 < b) :
    ⌈(N : ℚ) / (b : ℚ)⌉ = (((N + b - 1) / b : Nat) : Int) := by
  have hb0 : (0 : ℚ) < (b : ℚ) := by exact_mod_cast hb
  have hdm := Nat.div_add_mod (N + b - 1) b
  have hmod : (N + b - 1) % b < b := Nat.mod_lt _ hb
  refine Int.ceil_eq_iff.2 ⟨?_, ?_⟩
  · rw [lt_div_iff₀ hb0]
    have h2 : b * ((N + b - 1) / b) < N + b := by omega
    have h2Q : (((N + b - 1) / b : Nat) : ℚ) * (b : ℚ) < (N : ℚ) + b := by
      rw [mul_comm]
      exact_mod_cast h2
    rw [Int.cast_natCast]
    linarith
  · rw [div_le_iff₀ hb0]
    have h3 : N ≤ b * ((N + b - 1) / b) := by omega
    have h3Q : (N : ℚ) ≤ (((N + b - 1) / b : Nat) : ℚ) * (b : ℚ) := by
      rw [mul_comm]
      exact_mod_cast h3
    rw [Int.cast_natCast]
    exact h3Q

theorem specIdx_eq_pctIndex (num den n : Nat) (hden : 0 < den) (hn : 0 < n) :
    specIdx ((num : ℚ) / (den : ℚ)) n = pctIndex num den n := by
  unfold specIdx pctIndex
  have h1 : ((num : ℚ) / (den : ℚ)) * n = ((num * n : Nat) : ℚ) / (den : ℚ) := by
    push_cast
    ring
  rw [h1, ceil_natCast_div (num * n) den hden]
  omega

theorem le_getLast_of_sorted (ds : List Int) (hs : ds.Sorted (· ≤ ·)) (h : ds ≠ [])
    (d : Int) (hd : d ∈ ds) : d ≤ ds.getLast h := by
  obtain ⟨i, hi⟩ := List.mem_iff_get.1 hd
  have hpos : 0 < ds.length := List.length_pos.2 h
  rw [List.getLast_eq_get ds h]
  have hle : i ≤ (⟨ds.length - 1, by omega⟩ : Fin ds.length) := by
    rw [Fin.le_def]
    have := i.isLt
    simp only []
    omega
  calc d = ds.get i := hi.symm
    _ ≤ _ := hs.get_mono hle

/-- C5: `summarize` returns all-zero stats on the empty list; on a nonempty
list it returns the length, the number of records whose `ok` field is
literally `false`, the duration sum, the toward-zero-truncated mean, the
nearest-rank 50th and 95th percentiles of the ascending-sorted duration
list at index `clamp(ceil(p * n) - 1, 0, n - 1)` (stated with the spec's
rational ceiling formula), and the largest duration. -/
theorem claim_C5 (r0 : Record) (rest : List Record) :
    summarize_runs [] = ⟨0, 0, 0, 0, 0, 0, 0⟩ ∧
    (summarize_runs (r0 :: rest)).count = (r0 :: rest).length ∧
    (summarize_runs (r0 :: rest)).errors =
      ((r0 :: rest).filter (fun r => r.ok == some false)).length ∧
    (summarize_runs (r0 :: rest)).total_ms = ((r0 :: rest).map durOf).sum ∧
    (summarize_runs (r0 :: rest)).avg_ms =
      Int.tdiv (((r0 :: rest).map durOf).sum) ((r0 :: rest).length) ∧
    ∃ ds : List Int, ds.Perm ((r0 :: rest).map durOf) ∧ ds.Sorted (· ≤ ·) ∧
      (summarize_runs (r0 :: rest)).p50_ms =
        ds.getD (specIdx (1 / 2 : ℚ) (r0 :: rest).length) 0 ∧
      (summarize_runs (r0 :: rest)).p95_ms =
        ds.getD (specIdx (19 / 20 : ℚ) (r0 :: rest).length) 0 ∧
      (summarize_runs (r0 :: rest)).max_ms ∈ (r0 :: rest).map durOf ∧
      ∀ d ∈ (r0 :: rest).map durOf, d ≤ (summarize_runs (r0 :: rest)).max_ms := by
  have hzero : summarize_runs [] = ⟨0, 0, 0, 0, 0, 0, 0⟩ := rfl
  set runs := r0 :: rest with hruns
  set durs := runs.map durOf with hdurs
  set ds := List.insertionSort (· ≤ ·) durs with hds
  have hperm : ds.Perm durs := List.perm_insertionSort _ durs
  have hsorted : ds.Sorted (· ≤ ·) := List.sorted_insertionSort _ durs
  have hlen : ds.length = runs.length := by
    rw [hperm.length_eq, hdurs, List.length_map]
  have hne : ds ≠ [] := by
    intro hcon
    rw [hcon] at hlen
    simp [hruns] at hlen
  have hval : summarize_runs runs =
      { count := ds.length
        errors := runs.countP (fun r => !(r.ok.getD true))
        total_ms := durs.sum
        avg_ms := Int.tdiv durs.sum ds.length
        p50_ms := ds.getD (pctIndex 1 2 ds.length) 0
        p95_ms := ds.getD (pctIndex 19 20 ds.length) 0
        max_ms := ds.getLast?.getD 0 } := by
    rw [hruns]
    rfl
  have herr : runs.countP (fun r => !(r.ok.getD true)) =
      (runs.filter (fun r => r.ok == some false)).length := by
    rw [← List.countP_eq_length_filter]
    refine List.countP_congr ?_
    intro r _
    rcases hok : r.ok with _ | b
    · simp [hok]
    · cases b <;> simp [hok]
  have hn : 0 < runs.length := by simp [hruns]
  have hlast : ds.getLast?.getD 0 = ds.getLast hne := by
    rw [List.getLast?_eq_getLast ds hne]
    rfl
  refine ⟨hzero, ?_, ?_, ?_, ?_, ds, hperm, hsorted, ?_, ?_, ?_, ?_⟩
  · rw [hval, hlen]
  · rw [hval]
    exact herr
  · rw [hval]
  · rw [hval, hlen]
  · rw [hval]
    have : specIdx (1 / 2 : ℚ) runs.length = pctIndex 1 2 runs.length := by
      have := specIdx_eq_pctIndex 1 2 runs.length (by norm_num) hn
      simpa using this
    rw [this, hlen]
  · rw [hval]
    have : specIdx (19 / 20 : ℚ) runs.length = pctIndex 19 20 runs.length := by
      have := specIdx_eq_pctIndex 19 20 runs.length (by norm_num) hn
      simpa using this
    rw [this, hlen]
  · rw [hval, hlast]
    exact hperm.mem_iff.1 (List.getLast_mem hne)
  · intro d hd
    rw [hval, hlast]
    exact le_getLast_of_sorted ds hsorted hne d (hperm.mem_iff.2 hd)

/-- The first record of the spec's worked example: duration 10, success. -/
def rec10 : Record := { duration_ms := some 10, ok := some true }

/-- The second record of the spec's worked example: duration 20, failure. -/
def rec20 : Record := { duration_ms := some 20, ok := some false }

/-- C6 counterexample: on the two-record example the 50th percentile is the
sorted duration at rank `ceil(0.5 * 2) - 1 = 0`, which is 10 — not 20 as
the claim asserts for both percentiles. -/
theorem claim_C6_counterexample : (summarize_runs [rec10, rec20]).p50_ms ≠ 20 := by
  decide

/-- C6 (amended): the example yields count 2, errors 1, total 30, avg 15,
`p50_ms = 10` (nearest rank `ceil(0.5 * 2) - 1 = 0`), `p95_ms = 20`
(nearest rank `ceil(0.95 * 2) - 1 = 1`), and max 20. -/
theorem claim_C6 : summarize_runs [rec10, rec20] = ⟨2, 1, 30, 15, 10, 20, 20⟩ := by
  decide

/-! Section: Claim C8: the action proxy -/

/-- C8: the intercepted `invoke` (i) appends exactly one run metric — agent
id, the fresh run id, `ok`, wall-clock start, duration, `node = "run"` — to
the owner's bucket of a mapping result's ledger (creating the ledger or the
bucket as needed, growing the bucket by exactly one record); (ii) records
nothing when the result is not a mapping; (iii) swallows bookkeeping errors
(a malformed ledger slot leaves the result untouched and the caller still
receives it); and (iv) propagates an exception of the wrapped call
unchanged. -/
theorem claim_C8 (tid fresh wall : String) (t0 t1 : Int) (m : ActionMapping)
    (led : Ledger) (badTag resTag : String) (e : PyExn) :
    proxy_invoke tid fresh wall t0 t1 (.ok (.dict { m with mslot := some (.led led) })) =
      .ok (.dict { m with mslot := some (.led (setEntry led tid
        (((lookupL led tid).getD []) ++ [proxyRecord tid fresh wall t0 t1 true]))) }) ∧
    ((lookupL (setEntry led tid
        (((lookupL led tid).getD []) ++ [proxyRecord tid fresh wall t0 t1 true])) tid).getD
      []).length = ((lookupL led tid).getD []).length + 1 ∧
    proxy_invoke tid fresh wall t0 t1 (.ok (.dict { m with mslot := none })) =
      .ok (.dict { m with
        mslot := some (.led [(tid, [proxyRecord tid fresh wall t0 t1 true])]) }) ∧
    proxy_invoke tid fresh wall t0 t1 (.ok (.nondict resTag)) = .ok (.nondict resTag) ∧
    proxy_invoke tid fresh wall t0 t1 (.ok (.dict { m with mslot := some (.bad badTag) })) =
      .ok (.dict { m with mslot := some (.bad badTag) }) ∧
    proxy_invoke tid fresh wall t0 t1 (.raises e) = .raises e := by
  refine ⟨rfl, ?_, rfl, rfl, rfl, rfl⟩
  rw [lookupL_setEntry_self]
  simp

/-! Section: Claim C9: tolerance of missing record fields -/

/-- A record with every field absent except a five-millisecond duration:
its `ok` key is missing. -/
def recNoOk : Record := { duration_ms := some 5 }

/-- A record with every field absent. -/
def recEmpty : Record := {}

/-- C9 counterexample: the claim says a missing `ok` field defaults to
false, which would count the record as an error; the code defaults `ok` to
`True` (`r.get("ok", True)`), so summarizing one `ok`-less record reports
zero errors, not one. -/
theorem claim_C9_counterexample : (summarize_runs [recNoOk]).errors ≠ 1 := by
  decide

/-- C9 (amended): merge and summarization never fail on records with
missing fields; a missing duration defaults to zero and missing identity
fields enter the dedup key as the unknown value, but a missing `ok`
defaults to true (success), not false: the error count is exactly the
number of records whose `ok` field is present and false, the total is the
sum of present durations, and merging ledgers of fully field-less records
deduplicates them under the all-unknown key without raising. -/
theorem claim_C9 (runs : List Record) :
    (summarize_runs runs).errors =
      ((runs.filter (fun r => r.ok == some false)).length) ∧
    (summarize_runs runs).total_ms = (runs.map (fun r => r.duration_ms.getD 0)).sum ∧
    merge_metrics [("A", [recEmpty])] [("A", [recEmpty, recEmpty])] = [("A", [recEmpty])] := by
  refine ⟨?_, ?_, by decide⟩
  · cases runs with
    | nil => rfl
    | cons r0 rest =>
        show (r0 :: rest).countP (fun r => !(r.ok.getD true)) = _
        rw [← List.countP_eq_length_filter]
        refine List.countP_congr ?_
        intro r _
        rcases hok : r.ok with _ | b
        · simp [hok]
        · cases b <;> simp [hok]
  · cases runs with
    | nil => rfl
    | cons r0 rest => rfl

/-! Section: Claim C10: the flat tool timer -/

/-- C10: every invocation of a `timed_tool`-wrapped function appends exactly
one `(name, duration, ok)` entry to the process-wide log — also when the
function raises, in which case the entry has `ok = false` and the exception
propagates unchanged — and a successful call passes its value through. -/
theorem claim_C10 (name : String) (t0 t1 : Int) (log : List ToolEntry)
    (v : String) (e : PyExn) :
    timed_tool_call name t0 t1 (.ok v) log = (log ++ [(name, t1 - t0, true)], .ok v) ∧
    timed_tool_call name t0 t1 (.raises e) log =
      (log ++ [(name, t1 - t0, false)], .raises e) ∧
    (timed_tool_call name t0 t1 (.ok v) log).1.length = log.length + 1 ∧
    (timed_tool_call name t0 t1 (.raises e) log).1.length = log.length + 1 := by
  refine ⟨rfl, rfl, ?_, ?_⟩ <;> simp [timed_tool_call]

end Ursa
